import Mathlib

/-!
Verification of the session, update-iterator, tracing-wrapper and
procedure-cache components of a SQL engine core (go-mysql-server).

The Go code is shallowly embedded: Go maps become association lists with
overwrite-on-insert semantics, Go slices become Lean lists, `uint16` casts
become `% 65536`, and externally supplied capabilities (the row updater, the
schema-aware row equality, update expressions, iterator close operations)
become function arguments; where a call trace matters (how often the updater
was invoked, close ordering) the embedded operation additionally returns the
list of calls it made, in order.
-/

/-! ## Session warning state (sql/session.go) -/

/-- Warning record from sql/session.go: level, message and code. -/
structure Warning where
  Level : String
  Message : String
  Code : Int
  deriving DecidableEq, Repr

/-- Warning-related state of a BaseSession from sql/session.go: the ordered
slice `warnings` and the uint16 acknowledgment counter `warncnt`. -/
structure SessionWarnState where
  warnings : List Warning
  warncnt : Nat
  deriving DecidableEq, Repr

/-- Go cast `uint16(n)` on a non-negative count: reduction modulo 2^16. -/
def uint16cast (n : Nat) : Nat := n % 65536

/-- BaseSession.Warn from sql/session.go: appends the warning to the slice. -/
def Warn (s : SessionWarnState) (w : Warning) : SessionWarnState :=
  { s with warnings := s.warnings ++ [w] }

/-- BaseSession.Warnings from sql/session.go: builds a fresh slice of the same
length n whose entry i is the stored warning at index n-i-1. -/
def Warnings (s : SessionWarnState) : List Warning :=
  (List.range s.warnings.length).map
    (fun i => s.warnings.getD (s.warnings.length - i - 1) (Warning.mk "" "" 0))

/-- BaseSession.ClearWarnings from sql/session.go: captures
cnt := uint16(len(warnings)); if warncnt = cnt the slice is emptied and
warncnt reset to 0, otherwise warncnt is set to cnt. -/
def ClearWarnings (s : SessionWarnState) : SessionWarnState :=
  let cnt := uint16cast s.warnings.length
  if s.warncnt = cnt then { warnings := [], warncnt := 0 }
  else { s with warncnt := cnt }

/-- BaseSession.WarningCount from sql/session.go: uint16(len(s.warnings)). -/
def WarningCount (s : SessionWarnState) : Nat := uint16cast s.warnings.length

/-! ## Claims C3, C7, C10 -/

/-- Helper: whenever the acknowledged counter equals the current stored count
cast to uint16, ClearWarnings wipes the storage and resets the counter. -/
theorem clearWarnings_wipe_of_match (s : SessionWarnState)
    (h : s.warncnt = uint16cast s.warnings.length) :
    ClearWarnings s = SessionWarnState.mk [] 0 := by
  unfold ClearWarnings
  rw [if_pos h]

/-- C3 (counterexample): with 65536 stored warnings and acknowledgment counter
0, warnings were appended after the acknowledged count (warncnt < number of
stored warnings), yet a single ClearWarnings call empties the storage: the
uint16 cast makes the captured count wrap to 0 = warncnt. -/
theorem clearWarnings_drops_concurrent_warning_cex :
    (SessionWarnState.mk (List.replicate 65536 (Warning.mk "" "" 0)) 0).warncnt
      < (SessionWarnState.mk (List.replicate 65536 (Warning.mk "" "" 0)) 0).warnings.length ∧
    (ClearWarnings
      (SessionWarnState.mk (List.replicate 65536 (Warning.mk "" "" 0)) 0)).warnings = [] := by
  have hw : (SessionWarnState.mk (List.replicate 65536 (Warning.mk "" "" 0)) 0).warnings
      = List.replicate 65536 (Warning.mk "" "" 0) := rfl
  have hc : (SessionWarnState.mk (List.replicate 65536 (Warning.mk "" "" 0)) 0).warncnt
      = 0 := rfl
  constructor
  · rw [hc, hw, List.length_replicate]
    norm_num
  · have h0 : (SessionWarnState.mk (List.replicate 65536 (Warning.mk "" "" 0)) 0).warncnt
        = uint16cast
          (SessionWarnState.mk (List.replicate 65536 (Warning.mk "" "" 0)) 0).warnings.length := by
      rw [hc, hw, List.length_replicate]
      norm_num [uint16cast]
    rw [clearWarnings_wipe_of_match _ h0]

/-- C3 (amended): provided the session holds fewer than 2^16 warnings,
ClearWarnings empties the storage and resets the counter exactly when the
current number of stored warnings equals the acknowledgment counter; otherwise
it keeps every stored warning and only advances the counter to the current
count, so a warning appended after the last acknowledged count is not removed. -/
theorem clearWarnings_optimistic (s : SessionWarnState)
    (hlen : s.warnings.length < 65536) :
    (s.warncnt = s.warnings.length →
       ClearWarnings s = SessionWarnState.mk [] 0) ∧
    (s.warncnt ≠ s.warnings.length →
       (ClearWarnings s).warnings = s.warnings ∧
       (ClearWarnings s).warncnt = s.warnings.length) := by
  unfold ClearWarnings uint16cast
  rw [Nat.mod_eq_of_lt hlen]
  constructor
  · intro h
    simp [if_pos h]
  · intro h
    simp [if_neg h]

/-- C3 witness: concrete application of the amended ClearWarnings theorem. -/
theorem clearWarnings_optimistic_witness :
    ClearWarnings (SessionWarnState.mk [Warning.mk "w" "m" 1] 1) = SessionWarnState.mk [] 0 :=
  (clearWarnings_optimistic (SessionWarnState.mk [Warning.mk "w" "m" 1] 1)
    (by simp)).1 (by simp)

/-- C7: Warnings returns a copy of the stored warnings in reverse insertion
order (most recent first), and after Warn w1 then Warn w2 on a fresh session it
returns [w2, w1]. -/
theorem warnings_most_recent_first (s : SessionWarnState) (w1 w2 : Warning) :
    Warnings s = s.warnings.reverse ∧
    Warnings (Warn (Warn (SessionWarnState.mk [] 0) w1) w2) = [w2, w1] := by
  have hrev : ∀ t : SessionWarnState, Warnings t = t.warnings.reverse := by
    intro t
    apply List.ext_getElem
    · simp [Warnings]
    · intro i h1 h2
      simp only [Warnings, List.getElem_map, List.getElem_range, List.getElem_reverse]
      rw [List.getD_eq_getElem]
      · congr 1
        omega
      · simp only [Warnings, List.length_map, List.length_range] at h1
        omega
  refine ⟨hrev s, ?_⟩
  rw [hrev]
  rfl

/-- C10: WarningCount reports the number of stored warnings reduced modulo
2^16, Warn grows the storage without bound, and once at least 2^16 warnings
accumulate the reported count no longer equals the true number. -/
theorem warningCount_wraps_uint16 (s : SessionWarnState) (n : Nat)
    (h : s.warnings.length = n) (w : Warning) :
    WarningCount s = n % 2 ^ 16 ∧
    (Warn s w).warnings.length = n + 1 ∧
    (2 ^ 16 ≤ n → WarningCount s ≠ n) := by
  unfold WarningCount uint16cast Warn
  refine ⟨by rw [h]; norm_num, by simp [h], ?_⟩
  intro hn
  rw [h]
  have hlt : n % 65536 < 65536 := Nat.mod_lt n (by norm_num)
  norm_num at hn ⊢
  omega

/-- C10 witness: a session with 65536 stored warnings reports a warning count
of 0, which differs from the true number of warnings. -/
theorem warningCount_wraps_uint16_witness :
    WarningCount (SessionWarnState.mk (List.replicate 65536 (Warning.mk "" "" 0)) 0)
        = 65536 % 2 ^ 16 ∧
    WarningCount (SessionWarnState.mk (List.replicate 65536 (Warning.mk "" "" 0)) 0)
        ≠ 65536 := by
  have hl : (SessionWarnState.mk (List.replicate 65536 (Warning.mk "" "" 0)) 0).warnings.length
      = 65536 := by
    rw [show (SessionWarnState.mk (List.replicate 65536 (Warning.mk "" "" 0)) 0).warnings
        = List.replicate 65536 (Warning.mk "" "" 0) from rfl, List.length_replicate]
  have h := warningCount_wraps_uint16
    (SessionWarnState.mk (List.replicate 65536 (Warning.mk "" "" 0)) 0) 65536
    hl (Warning.mk "" "" 0)
  exact ⟨h.1, h.2.2 (by norm_num)⟩

/-! ## Update iterator (sql/plan/update.go) -/

/-- Close event in the trace recorded by the embedded updateIter.Close:
which of the two owned resources was closed. -/
inductive CloseEvent where
  | updaterClosed : CloseEvent
  | childIterClosed : CloseEvent
  deriving DecidableEq, Repr

/-- updateIter.Next from sql/plan/update.go, over an abstract value type α and
error type ε. The child iterator's Next result is passed in as childResult; the
schema-aware oldRow.Equals(newRow, u.schema) call and the injected
u.updater.Update(ctx, oldRow, newRow) call are passed in as functions. Besides
the Go return value, the embedding returns the list of (old, new) arguments of
the Update invocations it performed, in order. -/
def updateIterNext {α ε : Type} (childResult : Except ε (List α))
    (equalsFn : List α → List α → Except ε Bool)
    (updateFn : List α → List α → Except ε Unit) :
    Except ε (List α) × List (List α × List α) :=
  match childResult with
  | Except.error e => (Except.error e, [])
  | Except.ok oldAndNewRow =>
    let oldRow := oldAndNewRow.take (oldAndNewRow.length / 2)
    let newRow := oldAndNewRow.drop (oldAndNewRow.length / 2)
    match equalsFn oldRow newRow with
    | Except.ok equals =>
      if equals = false then
        match updateFn oldRow newRow with
        | Except.error e => (Except.error e, [(oldRow, newRow)])
        | Except.ok _ => (Except.ok oldAndNewRow, [(oldRow, newRow)])
      else (Except.ok oldAndNewRow, [])
    | Except.error e => (Except.error e, [])

/-- updateIter.Close from sql/plan/update.go, over an abstract error type ε.
The u.updater.Close(ctx) and u.childIter.Close(ctx) results are passed in as
values; the embedding returns the Go return value, the new closed flag, and
the trace of close events it performed, in order. -/
def updateIterClose {ε : Type} (closed : Bool) (updaterClose childClose : Except ε Unit) :
    Except ε Unit × Bool × List CloseEvent :=
  if closed = false then
    match updaterClose with
    | Except.error e => (Except.error e, true, [CloseEvent.updaterClosed])
    | Except.ok _ => (childClose, true, [CloseEvent.updaterClosed, CloseEvent.childIterClosed])
  else (Except.ok (), closed, [])

/-- Value produced by an update expression, as seen by the type switch in
applyUpdateExpressions: either a row, or some non-row value carrying the type
name that the ErrUpdateUnexpectedSetResult message would render via %T. -/
inductive SqlValue (α : Type) where
  | row : List α → SqlValue α
  | nonRow : String → SqlValue α
  deriving DecidableEq, Repr

/-- Error resulting from applyUpdateExpressions: a propagated expression
evaluation error, or ErrUpdateUnexpectedSetResult with the offending type
name. -/
inductive UpdateError (ε : Type) where
  | evalErr : ε → UpdateError ε
  | unexpectedSetResult : String → UpdateError ε
  deriving DecidableEq, Repr

/-- applyUpdateExpressions from sql/plan/update.go: evaluates each update
expression on the row produced so far; an evaluation error is propagated, a
non-row result raises ErrUpdateUnexpectedSetResult, and a row result becomes
the input of the next expression. -/
def applyUpdateExpressions {α ε : Type} (updateExprs : List (List α → Except ε (SqlValue α)))
    (row : List α) : Except (UpdateError ε) (List α) :=
  match updateExprs with
  | [] => Except.ok row
  | updateExpr :: rest =>
    match updateExpr row with
    | Except.error e => Except.error (UpdateError.evalErr e)
    | Except.ok (SqlValue.row r) => applyUpdateExpressions rest r
    | Except.ok (SqlValue.nonRow t) => Except.error (UpdateError.unexpectedSetResult t)

/-! ## Claims C4, C5, C8 -/

/-- C4: on a paired row of width 2N yielded by the child, updateIterNext splits
it at the midpoint into old and new halves; when the schema-aware equality
returns false the updater's Update is invoked exactly once with (old, new);
when it returns true, Update is not invoked; in both success cases the full
paired row is yielded, while an error from the equality check or from Update is
returned instead of a row. -/
theorem updateIter_next_diff_semantics {α ε : Type} (r : List α) (n : Nat)
    (hlen : r.length = 2 * n)
    (equalsFn : List α → List α → Except ε Bool)
    (updateFn : List α → List α → Except ε Unit) :
    (equalsFn (r.take n) (r.drop n) = Except.ok true →
       updateIterNext (Except.ok r) equalsFn updateFn = (Except.ok r, [])) ∧
    (equalsFn (r.take n) (r.drop n) = Except.ok false →
       (∀ u : Unit, updateFn (r.take n) (r.drop n) = Except.ok u →
          updateIterNext (Except.ok r) equalsFn updateFn
            = (Except.ok r, [(r.take n, r.drop n)])) ∧
       (∀ e, updateFn (r.take n) (r.drop n) = Except.error e →
          updateIterNext (Except.ok r) equalsFn updateFn
            = (Except.error e, [(r.take n, r.drop n)]))) ∧
    (∀ e, equalsFn (r.take n) (r.drop n) = Except.error e →
       updateIterNext (Except.ok r) equalsFn updateFn = (Except.error e, [])) := by
  have hhalf : r.length / 2 = n := by omega
  refine ⟨?_, ⟨fun heq => ⟨?_, ?_⟩, ?_⟩⟩ <;>
    simp only [updateIterNext, hhalf]
  · intro heq
    rw [heq]
    simp
  · intro u hupd
    rw [heq, hupd]
    simp
  · intro e hupd
    rw [heq, hupd]
    simp
  · intro e heq
    rw [heq]

/-- C4 witness: a concrete changed row invokes Update once and yields the
paired row; a concrete unchanged row skips Update and still yields the row. -/
theorem updateIter_next_diff_semantics_witness :
    updateIterNext (Except.ok [1, 2] : Except String (List Nat))
        (fun o v => Except.ok (decide (o = v))) (fun _ _ => Except.ok ())
      = (Except.ok [1, 2], [([1], [2])]) ∧
    updateIterNext (Except.ok [3, 3] : Except String (List Nat))
        (fun o v => Except.ok (decide (o = v))) (fun _ _ => Except.ok ())
      = (Except.ok [3, 3], []) := by
  constructor
  · exact ((updateIter_next_diff_semantics [1, 2] 1 rfl
      (fun o v => Except.ok (decide (o = v))) (fun _ _ => Except.ok ())).2.1
        (by rfl)).1 () rfl
  · exact (updateIter_next_diff_semantics [3, 3] 1 rfl
      (fun o v => Except.ok (decide (o = v))) (fun _ _ => Except.ok ())).1 (by rfl)

/-- C5: updateIterClose is idempotent: with the closed flag set it performs no
closes and returns ok; the first call sets the flag, closes the updater first,
and if the updater close succeeds also closes the child iterator and returns
the child's result, while an updater close error is returned at once, taking
precedence over the child's close result. -/
theorem updateIter_close_idempotent {ε : Type} (updaterClose childClose : Except ε Unit) :
    (updateIterClose true updaterClose childClose = (Except.ok (), true, [])) ∧
    ((updateIterClose false updaterClose childClose).2.1 = true) ∧
    (∀ u : Unit, updaterClose = Except.ok u →
       updateIterClose false updaterClose childClose
         = (childClose, true, [CloseEvent.updaterClosed, CloseEvent.childIterClosed])) ∧
    (∀ e, updaterClose = Except.error e →
       updateIterClose false updaterClose childClose
         = (Except.error e, true, [CloseEvent.updaterClosed])) := by
  refine ⟨rfl, ?_, ?_, ?_⟩
  · cases updaterClose <;> rfl
  · intro u hu
    rw [show updaterClose = Except.ok () from by rw [hu]]
    rfl
  · intro e he
    rw [he]
    rfl

/-- C5 witness: concrete first and repeated Close calls, in the success and the
updater-error case. -/
theorem updateIter_close_idempotent_witness :
    updateIterClose false (Except.ok () : Except Nat Unit) (Except.ok ())
      = (Except.ok (), true, [CloseEvent.updaterClosed, CloseEvent.childIterClosed]) ∧
    updateIterClose false (Except.error 7 : Except Nat Unit) (Except.ok ())
      = (Except.error 7, true, [CloseEvent.updaterClosed]) ∧
    updateIterClose true (Except.error 7 : Except Nat Unit) (Except.error 9)
      = (Except.ok (), true, []) := by
  refine ⟨?_, ?_, ?_⟩
  · exact (updateIter_close_idempotent (Except.ok ()) (Except.ok ())).2.2.1 () rfl
  · exact (updateIter_close_idempotent (Except.error 7) (Except.ok ())).2.2.2 7 rfl
  · exact (updateIter_close_idempotent (Except.error 7) (Except.error 9)).1

/-- Helper: one-step unfolding of applyUpdateExpressions on a nonempty list. -/
theorem applyUpdateExpressions_cons {α ε : Type} (e : List α → Except ε (SqlValue α))
    (rest : List (List α → Except ε (SqlValue α))) (row : List α) :
    applyUpdateExpressions (e :: rest) row
      = match e row with
        | Except.error err => Except.error (UpdateError.evalErr err)
        | Except.ok (SqlValue.row r) => applyUpdateExpressions rest r
        | Except.ok (SqlValue.nonRow t) => Except.error (UpdateError.unexpectedSetResult t) := rfl

/-- Helper: applyUpdateExpressions over an appended list runs the first part,
then feeds its resulting row to the second part; an error in the first part
short-circuits. -/
theorem applyUpdateExpressions_append {α ε : Type}
    (l1 l2 : List (List α → Except ε (SqlValue α))) (row : List α) :
    applyUpdateExpressions (l1 ++ l2) row
      = match applyUpdateExpressions l1 row with
        | Except.ok r => applyUpdateExpressions l2 r
        | Except.error e => Except.error e := by
  induction l1 generalizing row with
  | nil => rfl
  | cons e rest ih =>
    rw [List.cons_append, applyUpdateExpressions_cons, applyUpdateExpressions_cons]
    cases he : e row with
    | error err => rfl
    | ok v =>
      cases v with
      | row r => exact ih r
      | nonRow t => rfl

/-- Helper: any error of applyUpdateExpressions arises at a unique split point:
a prefix that evaluates cleanly to a row, followed by one expression that
either evaluates to a non-row value or fails. -/
theorem applyUpdateExpressions_error_split {α ε : Type}
    (exprs : List (List α → Except ε (SqlValue α))) (row : List α)
    (out : UpdateError ε)
    (h : applyUpdateExpressions exprs row = Except.error out) :
    ∃ pre ex suf r, exprs = pre ++ ex :: suf ∧
      applyUpdateExpressions pre row = Except.ok r ∧
      ((∃ t, ex r = Except.ok (SqlValue.nonRow t) ∧ out = UpdateError.unexpectedSetResult t) ∨
       (∃ err, ex r = Except.error err ∧ out = UpdateError.evalErr err)) := by
  induction exprs generalizing row with
  | nil => exact absurd h (by simp [applyUpdateExpressions])
  | cons e rest ih =>
    rw [applyUpdateExpressions_cons] at h
    cases he : e row with
    | error err =>
      rw [he] at h
      refine ⟨[], e, rest, row, rfl, rfl, Or.inr ⟨err, he, ?_⟩⟩
      cases h
      rfl
    | ok v =>
      cases v with
      | row r =>
        rw [he] at h
        obtain ⟨pre, ex, suf, rr, hsplit, hpre, hcase⟩ := ih r h
        refine ⟨e :: pre, ex, suf, rr, by rw [hsplit, List.cons_append], ?_, hcase⟩
        rw [applyUpdateExpressions_cons, he]
        exact hpre
      | nonRow t =>
        rw [he] at h
        cases h
        exact ⟨[], e, rest, row, rfl, rfl, Or.inl ⟨t, he, rfl⟩⟩

/-- C8: applyUpdateExpressions evaluates the expressions in order, feeding each
result row to the next expression: the empty list returns the input row; it
fails with ErrUpdateUnexpectedSetResult exactly when, after some prefix has
evaluated cleanly to a row, the next expression evaluates without error to a
non-row value; it propagates an expression evaluation error exactly when the
next expression after a clean prefix fails with that error; and it returns ok
exactly with the row produced by the last expression. -/
theorem applyUpdateExpressions_semantics {α ε : Type}
    (exprs : List (List α → Except ε (SqlValue α))) (row : List α)
    (ex : List α → Except ε (SqlValue α)) (r2 : List α) :
    (applyUpdateExpressions ([] : List (List α → Except ε (SqlValue α))) row
        = Except.ok row) ∧
    (∀ t, applyUpdateExpressions exprs row
        = Except.error (UpdateError.unexpectedSetResult t) ↔
      ∃ pre e suf r, exprs = pre ++ e :: suf ∧
        applyUpdateExpressions pre row = Except.ok r ∧
        e r = Except.ok (SqlValue.nonRow t)) ∧
    (∀ err, applyUpdateExpressions exprs row = Except.error (UpdateError.evalErr err) ↔
      ∃ pre e suf r, exprs = pre ++ e :: suf ∧
        applyUpdateExpressions pre row = Except.ok r ∧
        e r = Except.error err) ∧
    (applyUpdateExpressions (exprs ++ [ex]) row = Except.ok r2 ↔
      ∃ r1, applyUpdateExpressions exprs row = Except.ok r1 ∧
        ex r1 = Except.ok (SqlValue.row r2)) := by
  refine ⟨rfl, ?_, ?_, ?_⟩
  · intro t
    constructor
    · intro h
      obtain ⟨pre, e, suf, r, hsplit, hpre, hcase⟩ :=
        applyUpdateExpressions_error_split exprs row _ h
      rcases hcase with ⟨t0, hA, hout⟩ | ⟨err, hA, hout⟩
      · cases hout
        exact ⟨pre, e, suf, r, hsplit, hpre, hA⟩
      · cases hout
    · rintro ⟨pre, e, suf, r, hsplit, hpre, hA⟩
      subst hsplit
      rw [applyUpdateExpressions_append, hpre]
      show applyUpdateExpressions (e :: suf) r = _
      rw [applyUpdateExpressions_cons, hA]
  · intro err
    constructor
    · intro h
      obtain ⟨pre, e, suf, r, hsplit, hpre, hcase⟩ :=
        applyUpdateExpressions_error_split exprs row _ h
      rcases hcase with ⟨t0, hA, hout⟩ | ⟨err0, hA, hout⟩
      · cases hout
      · cases hout
        exact ⟨pre, e, suf, r, hsplit, hpre, hA⟩
    · rintro ⟨pre, e, suf, r, hsplit, hpre, hA⟩
      subst hsplit
      rw [applyUpdateExpressions_append, hpre]
      show applyUpdateExpressions (e :: suf) r = _
      rw [applyUpdateExpressions_cons, hA]
  · rw [applyUpdateExpressions_append]
    constructor
    · intro h
      cases happ : applyUpdateExpressions exprs row with
      | error e0 =>
        rw [happ] at h
        cases h
      | ok r1 =>
        rw [happ] at h
        have h2 : applyUpdateExpressions [ex] r1 = Except.ok r2 := h
        rw [applyUpdateExpressions_cons] at h2
        cases hex : ex r1 with
        | error e0 =>
          rw [hex] at h2
          cases h2
        | ok v =>
          cases v with
          | row r =>
            rw [hex] at h2
            have h3 : Except.ok (ε := UpdateError ε) r = Except.ok r2 := h2
            cases h3
            exact ⟨r1, rfl, hex⟩
          | nonRow t =>
            rw [hex] at h2
            cases h2
    · rintro ⟨r1, h1, h2⟩
      rw [h1]
      show applyUpdateExpressions [ex] r1 = _
      rw [applyUpdateExpressions_cons, h2]
      rfl

/-- C8 witness: a concrete two-expression run where the first expression
produces a row and the second produces a non-row value fails with
ErrUpdateUnexpectedSetResult carrying that value's type name. -/
theorem applyUpdateExpressions_semantics_witness :
    applyUpdateExpressions
        [(fun r => Except.ok (SqlValue.row (r ++ [5])) : List Nat → Except String (SqlValue Nat)),
         (fun _ => Except.ok (SqlValue.nonRow "int64"))] [1]
      = Except.error (UpdateError.unexpectedSetResult "int64") := by
  refine ((applyUpdateExpressions_semantics
      [(fun r => Except.ok (SqlValue.row (r ++ [5])) : List Nat → Except String (SqlValue Nat)),
       (fun _ => Except.ok (SqlValue.nonRow "int64"))] [1]
      (fun _ => Except.ok (SqlValue.nonRow "int64")) []).2.1 "int64").mpr ?_
  exact ⟨[fun r => Except.ok (SqlValue.row (r ++ [5]))],
    (fun _ => Except.ok (SqlValue.nonRow "int64")), [], [1, 5], rfl, rfl, rfl⟩

/-! ## Tracing iterator wrapper (sql/session.go) -/

/-- Tracer abstraction: the opentracing no-op tracer, or some other tracer
identified abstractly; the Go comparison of span.Tracer() with a NoopTracer
value is equality with the noop constructor. -/
inductive Tracer where
  | noop : Tracer
  | real : Nat → Tracer
  deriving DecidableEq, Repr

/-- Span abstraction: carries the tracer that created it, which is what the
span.Tracer() accessor returns. -/
structure Span where
  tracer : Tracer
  deriving DecidableEq, Repr

/-- State of the spanIter wrapper from sql/session.go over an abstract inner
row-iterator type ρ: the span, the wrapped iterator, and the zero-initialized
count, max, min, total (durations modelled as Nat) and done flag. -/
structure SpanIterState (ρ : Type) where
  span : Span
  iter : ρ
  count : Nat
  max : Nat
  min : Nat
  total : Nat
  done : Bool
  deriving DecidableEq, Repr

/-- NewSpanIter from sql/session.go: when the span's tracer is the no-op
tracer the inner iterator is returned unchanged, otherwise a zero-initialized
spanIter wrapping the inner iterator is returned. -/
def NewSpanIter {ρ : Type} (span : Span) (iter : ρ) : ρ ⊕ SpanIterState ρ :=
  if span.tracer = Tracer.noop then Sum.inl iter
  else Sum.inr (SpanIterState.mk span iter 0 0 0 0 false)

/-! ## Claim C9 -/

/-- C9: for a span whose tracer is the no-op tracer, NewSpanIter returns the
inner iterator itself unchanged; for any other tracer it returns a spanIter
wrapping that iterator (with zeroed statistics and its span). -/
theorem newSpanIter_noop_elision {ρ : Type} (span : Span) (iter : ρ) :
    (span.tracer = Tracer.noop → NewSpanIter span iter = Sum.inl iter) ∧
    (span.tracer ≠ Tracer.noop →
       NewSpanIter span iter = Sum.inr (SpanIterState.mk span iter 0 0 0 0 false)) := by
  constructor
  · intro h
    unfold NewSpanIter
    rw [if_pos h]
  · intro h
    unfold NewSpanIter
    rw [if_neg h]

/-- C9 witness: with the no-op tracer the iterator (a concrete value standing
for an iterator) comes back unchanged; with another tracer it is wrapped. -/
theorem newSpanIter_noop_elision_witness :
    NewSpanIter (Span.mk Tracer.noop) (42 : Nat) = Sum.inl 42 ∧
    NewSpanIter (Span.mk (Tracer.real 1)) (42 : Nat)
      = Sum.inr (SpanIterState.mk (Span.mk (Tracer.real 1)) 42 0 0 0 0 false) :=
  ⟨(newSpanIter_noop_elision (Span.mk Tracer.noop) 42).1 rfl,
   (newSpanIter_noop_elision (Span.mk (Tracer.real 1)) 42).2 (by simp)⟩

/-! ## Procedure cache (analyzer package) -/

/-- ASCII branch of Unicode lowercasing used by strings.ToLower: an upper-case
letter is shifted down by 32, every other character is unchanged. The
procedure-cache claims use ASCII names only. -/
def toLowerChar (c : Char) : Char :=
  if 65 ≤ c.toNat ∧ c.toNat ≤ 90 then Char.ofNat (c.toNat + 32) else c

/-- strings.ToLower from the Go standard library, on ASCII content: lowercases
every character of the string. -/
def goToLower (s : String) : String := String.mk (s.data.map toLowerChar)

/-- Helper: Char.ofNat on a valid code point round-trips through toNat. -/
theorem toNat_ofNat_valid (n : Nat) (hv : n.isValidChar) : (Char.ofNat n).toNat = n := by
  unfold Char.ofNat
  rw [dif_pos hv]
  unfold Char.ofNatAux Char.toNat UInt32.toNat
  simp

/-- Helper: lowercasing a character twice equals lowercasing it once. -/
theorem toLowerChar_idem (c : Char) : toLowerChar (toLowerChar c) = toLowerChar c := by
  unfold toLowerChar
  by_cases h : 65 ≤ c.toNat ∧ c.toNat ≤ 90
  · rw [if_pos h]
    have ht : (Char.ofNat (c.toNat + 32)).toNat = c.toNat + 32 :=
      toNat_ofNat_valid _ (by unfold Nat.isValidChar; left; omega)
    rw [if_neg]
    rw [ht]
    omega
  · rw [if_neg h, if_neg h]

/-- Helper: lowercasing a string twice equals lowercasing it once. -/
theorem goToLower_idem (s : String) : goToLower (goToLower s) = goToLower s := by
  unfold goToLower
  rw [List.map_map]
  congr 1
  apply List.map_congr_left
  intro c _
  exact toLowerChar_idem c

/-- Modelled from the spec: plan.Procedure is not among the given sources; only
its Name, Params (whose length is the declared parameter count) and
HasVariadicParameter() are consulted by the cache, so it is embedded as a name,
a list of parameter names and a variadic flag. -/
structure Procedure where
  Name : String
  Params : List String
  variadic : Bool
  deriving DecidableEq, Repr

/-- HasVariadicParameter of plan.Procedure: whether the procedure accepts a
variadic trailing parameter, embedded as the stored flag. -/
def Procedure.HasVariadicParameter (p : Procedure) : Bool := p.variadic

/-- Go math.MaxInt on a 64-bit platform, the sentinel arity for variadic
procedures. -/
def maxIntSentinel : Nat := 2 ^ 63 - 1

/-- Effective arity under which Register files a procedure and which the
fallback loop of Get recomputes: the declared parameter count, or math.MaxInt
when the procedure has a variadic parameter. -/
def effectiveArity (p : Procedure) : Nat :=
  if p.HasVariadicParameter then maxIntSentinel else p.Params.length

/-- Go map read m[k] on an association-list embedding of a map. -/
def mapRead {κ ν : Type} [DecidableEq κ] (k : κ) : List (κ × ν) → Option ν
  | [] => none
  | (k0, v0) :: rest => if k0 = k then some v0 else mapRead k rest

/-- Go map write m[k] = v on an association-list embedding of a map: overwrite
the binding if the key is present, otherwise add it. -/
def mapWrite {κ ν : Type} [DecidableEq κ] (k : κ) (v : ν) : List (κ × ν) → List (κ × ν)
  | [] => [(k, v)]
  | (k0, v0) :: rest => if k0 = k then (k, v) :: rest else (k0, v0) :: mapWrite k v rest

/-- ProcedureCache.dbToProcedureMap: database name → procedure name → arity →
procedure, embedded as nested association lists. -/
abbrev ProcedureCache : Type := List (String × List (String × List (Nat × Procedure)))

/-- ProcedureCache.Register: files the procedure under the database name
exactly as given, the lowercased procedure name, and the effective arity,
overwriting any colliding entry; missing nested maps are created empty. -/
def ProcedureCache.Register (pc : ProcedureCache) (dbName : String)
    (procedure : Procedure) : ProcedureCache :=
  let paramLen := effectiveArity procedure
  let name := goToLower procedure.Name
  let procMap := (mapRead dbName pc).getD []
  let procedures := (mapRead name procMap).getD []
  mapWrite dbName (mapWrite name (mapWrite paramLen procedure procedures) procMap) pc

/-- Fallback loop of ProcedureCache.Get: scans the procedures registered under
one (db, name), keeping the first procedure (largestParamProc starts nil) and
afterwards any procedure whose effective arity strictly exceeds the best seen
so far. -/
def largestLoop (procedures : List (Nat × Procedure)) (acc : Option (Procedure × Nat)) :
    Option (Procedure × Nat) :=
  match procedures with
  | [] => acc
  | kv :: rest =>
    match acc with
    | none => largestLoop rest (some (kv.2, effectiveArity kv.2))
    | some (best, bestLen) =>
      if bestLen < effectiveArity kv.2 then largestLoop rest (some (kv.2, effectiveArity kv.2))
      else largestLoop rest (some (best, bestLen))

/-- Result of the fallback loop of ProcedureCache.Get, started from nil. -/
def largestParamProc (procedures : List (Nat × Procedure)) : Option (Procedure × Nat) :=
  largestLoop procedures none

/-- ProcedureCache.Get: lowercases both names, returns an exact arity hit
directly, and otherwise falls back to the registered procedure with the
largest effective arity; absent database or name yields none. -/
def ProcedureCache.Get (pc : ProcedureCache) (dbName procedureName : String)
    (numOfParams : Nat) : Option Procedure :=
  match mapRead (goToLower dbName) pc with
  | some procMap =>
    match mapRead (goToLower procedureName) procMap with
    | some procedures =>
      match mapRead numOfParams procedures with
      | some procedure => some procedure
      | none => (largestParamProc procedures).map Prod.fst
    | none => none
  | none => none

/-- Comparator passed by AllForDatabase to sort.Slice: procedure i sorts
before j when its name is smaller, or names are equal and its declared
parameter count is smaller. -/
def procLess (p q : Procedure) : Bool :=
  if p.Name ≠ q.Name then decide (p.Name < q.Name)
  else decide (p.Params.length < q.Params.length)

/-- ProcedureCache.AllForDatabase: flattens every procedure registered under
the lowercased database name and sorts by the sort.Slice comparator; a sorting
algorithm whose output is sorted for the comparator and a permutation of its
input stands in for Go's unstable sort. -/
def ProcedureCache.AllForDatabase (pc : ProcedureCache) (dbName : String) :
    List Procedure :=
  match mapRead (goToLower dbName) pc with
  | some procMap =>
    (procMap.foldl (fun acc nv => acc ++ nv.2.map Prod.snd) []).mergeSort
      (fun a b => !(procLess b a))
  | none => []

/-- Procedures stored under one (db, name) pair: the arity-indexed family that
Get consults after lowercasing both names. -/
def procFamily (pc : ProcedureCache) (dbName procedureName : String) :
    List (Nat × Procedure) :=
  (mapRead (goToLower procedureName) ((mapRead (goToLower dbName) pc).getD [])).getD []

/-- Procedures stored under one database key after lowercasing, in storage
order: what AllForDatabase flattens before sorting. -/
def registeredUnder (pc : ProcedureCache) (dbName : String) : List Procedure :=
  ((mapRead (goToLower dbName) pc).getD []).foldl (fun acc nv => acc ++ nv.2.map Prod.snd) []

/-- Key consistency of one arity-indexed procedure family: keys are distinct
and each key is the effective arity of its procedure, as Register maintains. -/
abbrev ProcMapWF (procedures : List (Nat × Procedure)) : Prop :=
  (procedures.map Prod.fst).Nodup ∧ ∀ kv ∈ procedures, kv.1 = effectiveArity kv.2

/-- Key consistency of a whole cache: every stored family is consistent. -/
abbrev CacheWF (pc : ProcedureCache) : Prop :=
  ∀ dbe ∈ pc, ∀ ne ∈ dbe.2, ProcMapWF ne.2

/-- Helper: reading an association-list map after a write sees the written
value at the written key and is unchanged elsewhere. -/
theorem mapRead_mapWrite {κ ν : Type} [DecidableEq κ] (k k0 : κ) (v : ν)
    (l : List (κ × ν)) :
    mapRead k (mapWrite k0 v l) = if k0 = k then some v else mapRead k l := by
  induction l with
  | nil =>
    by_cases h : k0 = k
    · simp [mapWrite, mapRead, h]
    · simp [mapWrite, mapRead, h]
  | cons hd tl ih =>
    obtain ⟨k1, v1⟩ := hd
    by_cases h1 : k1 = k0
    · subst h1
      by_cases h : k1 = k
      · simp [mapWrite, mapRead, h]
      · simp [mapWrite, mapRead, h, ih]
    · by_cases h : k1 = k
      · subst h
        have hne : k0 ≠ k1 := fun hh => h1 hh.symm
        simp [mapWrite, mapRead, h1, hne]
      · simp [mapWrite, mapRead, h1, h, ih]

/-- Helper: a successful association-list read produces a stored binding. -/
theorem mapRead_mem {κ ν : Type} [DecidableEq κ] (k : κ) (l : List (κ × ν)) (v : ν)
    (h : mapRead k l = some v) : (k, v) ∈ l := by
  induction l with
  | nil => cases h
  | cons hd tl ih =>
    obtain ⟨k1, v1⟩ := hd
    by_cases h1 : k1 = k
    · subst h1
      rw [mapRead, if_pos rfl] at h
      cases h
      exact List.mem_cons_self _ _
    · rw [mapRead, if_neg h1] at h
      exact List.mem_cons_of_mem _ (ih h)

/-- Helper: the fallback loop started with a best candidate returns a stored
procedure (or the candidate) whose effective arity is maximal among the
candidate and every stored procedure. -/
theorem largestLoop_spec (procedures : List (Nat × Procedure)) (b : Procedure) :
    ∃ p, largestLoop procedures (some (b, effectiveArity b)) = some (p, effectiveArity p) ∧
      (p = b ∨ p ∈ procedures.map Prod.snd) ∧
      effectiveArity b ≤ effectiveArity p ∧
      ∀ q ∈ procedures.map Prod.snd, effectiveArity q ≤ effectiveArity p := by
  induction procedures generalizing b with
  | nil => exact ⟨b, rfl, Or.inl rfl, le_refl _, by simp⟩
  | cons kv rest ih =>
    by_cases h : effectiveArity b < effectiveArity kv.2
    · rw [show largestLoop (kv :: rest) (some (b, effectiveArity b))
          = largestLoop rest (some (kv.2, effectiveArity kv.2)) from by
        rw [largestLoop, if_pos h]]
      obtain ⟨p, heq, hmem, hge, hall⟩ := ih kv.2
      refine ⟨p, heq, ?_, le_trans (le_of_lt h) hge, ?_⟩
      · rcases hmem with rfl | hm
        · exact Or.inr (by simp)
        · exact Or.inr (List.mem_cons_of_mem _ hm)
      · intro q hq
        rcases List.mem_cons.mp hq with rfl | hq
        · exact hge
        · exact hall q hq
    · rw [show largestLoop (kv :: rest) (some (b, effectiveArity b))
          = largestLoop rest (some (b, effectiveArity b)) from by
        rw [largestLoop, if_neg h]]
      obtain ⟨p, heq, hmem, hge, hall⟩ := ih b
      refine ⟨p, heq, ?_, hge, ?_⟩
      · rcases hmem with rfl | hm
        · exact Or.inl rfl
        · exact Or.inr (List.mem_cons_of_mem _ hm)
      · intro q hq
        rcases List.mem_cons.mp hq with rfl | hq
        · exact le_trans (Nat.le_of_not_lt h) hge
        · exact hall q hq

/-- Helper: on a nonempty family the fallback loop returns a stored procedure
of maximal effective arity. -/
theorem largestParamProc_spec (procedures : List (Nat × Procedure))
    (hne : procedures ≠ []) :
    ∃ p, largestParamProc procedures = some (p, effectiveArity p) ∧
      p ∈ procedures.map Prod.snd ∧
      ∀ q ∈ procedures.map Prod.snd, effectiveArity q ≤ effectiveArity p := by
  cases procedures with
  | nil => exact absurd rfl hne
  | cons kv rest =>
    rw [show largestParamProc (kv :: rest)
        = largestLoop rest (some (kv.2, effectiveArity kv.2)) from by
      rw [largestParamProc, largestLoop]]
    obtain ⟨p, heq, hmem, hge, hall⟩ := largestLoop_spec rest kv.2
    refine ⟨p, heq, ?_, ?_⟩
    · rcases hmem with rfl | hm
      · exact List.mem_cons_self _ _
      · exact List.mem_cons_of_mem _ hm
    · intro q hq
      rcases List.mem_cons.mp hq with rfl | hq
      · exact hge
      · exact hall q hq

/-- Helper: under distinct keys, two stored bindings with the same key are the
same binding. -/
theorem nodup_keys_binding_inj {l : List (Nat × Procedure)}
    (hnd : (l.map Prod.fst).Nodup) (kv1 kv2 : Nat × Procedure)
    (h1 : kv1 ∈ l) (h2 : kv2 ∈ l) (hk : kv1.1 = kv2.1) : kv1 = kv2 := by
  induction l with
  | nil => cases h1
  | cons hd tl ih =>
    rw [List.map_cons, List.nodup_cons] at hnd
    rcases List.mem_cons.mp h1 with rfl | h1m
    · rcases List.mem_cons.mp h2 with rfl | h2m
      · rfl
      · exact absurd (hk ▸ List.mem_map_of_mem Prod.fst h2m) hnd.1
    · rcases List.mem_cons.mp h2 with rfl | h2m
      · exact absurd (hk ▸ List.mem_map_of_mem Prod.fst h1m) hnd.1
      · exact ih hnd.2 h1m h2m

/-- Helper: a consistent cache yields a consistent family for every pair of
lowercased lookup names. -/
theorem procFamily_wf (pc : ProcedureCache) (db name : String) (hwf : CacheWF pc) :
    ProcMapWF (procFamily pc db name) := by
  unfold procFamily
  cases hdb : mapRead (goToLower db) pc with
  | none =>
    simp only [Option.getD_none, mapRead]
    exact ⟨List.nodup_nil, by simp⟩
  | some pm =>
    simp only [Option.getD_some]
    cases hnm : mapRead (goToLower name) pm with
    | none =>
      simp only [Option.getD_none]
      exact ⟨List.nodup_nil, by simp⟩
    | some fam =>
      simp only [Option.getD_some]
      exact hwf _ (mapRead_mem _ _ _ hdb) _ (mapRead_mem _ _ _ hnm)

/-- Procedure foo with two fixed parameters, from the concrete scenario. -/
def demoFoo2 : Procedure := Procedure.mk "foo" ["a", "b"] false

/-- Procedure foo with one fixed parameter and a variadic tail, from the
concrete scenario. -/
def demoFooVariadic : Procedure := Procedure.mk "foo" ["a", "b"] true

/-- Cache of the concrete scenario: both foo procedures registered under the
database name d. -/
def demoCache : ProcedureCache :=
  ProcedureCache.Register (ProcedureCache.Register [] "d" demoFoo2) "d" demoFooVariadic

/-- Helper: Get expressed through the family stored under the two lowercased
names: an exact arity hit is returned, otherwise the fallback result; a
missing database or procedure name gives the empty family, on which the
fallback is none. -/
theorem Get_eq_on_family (pc : ProcedureCache) (dbName procedureName : String)
    (numOfParams : Nat) :
    ProcedureCache.Get pc dbName procedureName numOfParams
      = match mapRead numOfParams (procFamily pc dbName procedureName) with
        | some procedure => some procedure
        | none => (largestParamProc (procFamily pc dbName procedureName)).map Prod.fst := by
  cases hdb : mapRead (goToLower dbName) pc with
  | none =>
    simp only [ProcedureCache.Get, procFamily, hdb, Option.getD_none]
    rfl
  | some pm =>
    cases hx : mapRead (goToLower procedureName) pm with
    | none =>
      simp only [ProcedureCache.Get, procFamily, hdb, hx, Option.getD_some, Option.getD_none]
      rfl
    | some fam =>
      simp only [ProcedureCache.Get, procFamily, hdb, hx, Option.getD_some]

/-! ## Claim C1 -/

/-- C1: Get lowercases both names; an exact (db, name, count) hit is returned
directly; otherwise, whenever any procedure is registered under (db, name),
Get returns the unique one of greatest effective arity, where a variadic
procedure's effective arity is the math.MaxInt sentinel exceeding every fixed
arity; in the concrete scenario with a 2-fixed-parameter foo and a variadic
foo registered under db d, Get on (D, FOO, 5) returns the variadic procedure
and Get on (d, foo, 2) the 2-parameter one. -/
theorem procedureCache_get_overload_resolution (pc : ProcedureCache)
    (dbName procedureName : String) (numOfParams : Nat) (hwf : CacheWF pc) :
    (∀ p, mapRead numOfParams (procFamily pc dbName procedureName) = some p →
       ProcedureCache.Get pc dbName procedureName numOfParams = some p) ∧
    (mapRead numOfParams (procFamily pc dbName procedureName) = none →
     procFamily pc dbName procedureName ≠ [] →
       ∃ p, ProcedureCache.Get pc dbName procedureName numOfParams = some p ∧
         p ∈ (procFamily pc dbName procedureName).map Prod.snd ∧
         (∀ q ∈ (procFamily pc dbName procedureName).map Prod.snd,
            effectiveArity q ≤ effectiveArity p) ∧
         (∀ q ∈ (procFamily pc dbName procedureName).map Prod.snd,
            q ≠ p → effectiveArity q < effectiveArity p)) ∧
    (ProcedureCache.Get demoCache "D" "FOO" 5 = some demoFooVariadic ∧
     ProcedureCache.Get demoCache "d" "foo" 2 = some demoFoo2) := by
  have hfam := procFamily_wf pc dbName procedureName hwf
  refine ⟨?_, ?_, by decide, by decide⟩
  · intro p hp
    rw [Get_eq_on_family, hp]
  · intro hmiss hne
    rw [Get_eq_on_family, hmiss]
    obtain ⟨p, heq, hmem, hall⟩ := largestParamProc_spec _ hne
    refine ⟨p, by rw [heq]; rfl, hmem, hall, ?_⟩
    intro q hq hqp
    refine lt_of_le_of_ne (hall q hq) ?_
    intro harity
    obtain ⟨kvq, hkvq, hq2⟩ := List.mem_map.mp hq
    obtain ⟨kvp, hkvp, hp2⟩ := List.mem_map.mp hmem
    have hkq : kvq.1 = effectiveArity kvq.2 := hfam.2 kvq hkvq
    have hkp : kvp.1 = effectiveArity kvp.2 := hfam.2 kvp hkvp
    have hkeq : kvq.1 = kvp.1 := by
      rw [hkq, hkp, hq2, hp2, harity]
    have := nodup_keys_binding_inj hfam.1 kvq kvp hkvq hkvp hkeq
    exact hqp (by rw [← hq2, ← hp2, this])

/-- C1 witness: the exact-hit and fallback branches applied to the concrete
scenario cache, whose key consistency is checked by evaluation. -/
theorem procedureCache_get_overload_resolution_witness :
    ProcedureCache.Get demoCache "d" "foo" 2 = some demoFoo2 ∧
    (∃ p, ProcedureCache.Get demoCache "D" "FOO" 5 = some p ∧
      p ∈ (procFamily demoCache "D" "FOO").map Prod.snd ∧
      (∀ q ∈ (procFamily demoCache "D" "FOO").map Prod.snd,
         effectiveArity q ≤ effectiveArity p) ∧
      (∀ q ∈ (procFamily demoCache "D" "FOO").map Prod.snd,
         q ≠ p → effectiveArity q < effectiveArity p)) := by
  have h := procedureCache_get_overload_resolution demoCache "D" "FOO" 5 (by decide)
  have h2 := procedureCache_get_overload_resolution demoCache "d" "foo" 2 (by decide)
  exact ⟨(h2.1 demoFoo2 (by decide)), h.2.1 (by decide) (by decide)⟩

/-! ## Claim C2 -/

/-- C2: Register stores the procedure under the database name exactly as
given, with only the procedure name lowercased, while Get lowercases the
database name before lookup; consequently, registering under a database name
that is not already all-lowercase leaves every Get result unchanged — no Get
call can observe the new entry. -/
theorem procedureCache_db_normalization_asymmetry (pc : ProcedureCache)
    (dbName : String) (procedure : Procedure) (h : goToLower dbName ≠ dbName) :
    (mapRead (effectiveArity procedure)
       ((mapRead (goToLower procedure.Name)
          ((mapRead dbName (ProcedureCache.Register pc dbName procedure)).getD [])).getD [])
       = some procedure) ∧
    (∀ qdb qname n,
       ProcedureCache.Get (ProcedureCache.Register pc dbName procedure) qdb qname n
         = ProcedureCache.Get pc qdb qname n) := by
  constructor
  · unfold ProcedureCache.Register
    rw [mapRead_mapWrite, if_pos rfl, Option.getD_some,
      mapRead_mapWrite, if_pos rfl, Option.getD_some,
      mapRead_mapWrite, if_pos rfl]
  · intro qdb qname n
    have hne : dbName ≠ goToLower qdb := by
      intro heq
      apply h
      rw [heq, goToLower_idem]
    unfold ProcedureCache.Get ProcedureCache.Register
    rw [mapRead_mapWrite, if_neg hne]

/-- C2 witness: registering foo under the database name D (not all-lowercase)
is invisible to a Get that would otherwise find it. -/
theorem procedureCache_db_normalization_asymmetry_witness :
    ProcedureCache.Get (ProcedureCache.Register [] "D" demoFoo2) "D" "foo" 2
      = ProcedureCache.Get [] "D" "foo" 2 ∧
    ProcedureCache.Get (ProcedureCache.Register [] "D" demoFoo2) "D" "foo" 2 = none := by
  have h := procedureCache_db_normalization_asymmetry [] "D" demoFoo2 (by decide)
  exact ⟨h.2 "D" "foo" 2, by rw [h.2 "D" "foo" 2]; rfl⟩

/-! ## Claim C6 -/

/-- Helper: the sort.Slice comparator holds exactly for the strict
lexicographic order on (name, parameter count). -/
theorem procLess_iff (p q : Procedure) :
    procLess p q = true ↔
      (p.Name < q.Name ∨ (p.Name = q.Name ∧ p.Params.length < q.Params.length)) := by
  unfold procLess
  by_cases h : p.Name = q.Name
  · simp [h]
  · simp [h]

/-- Helper: the comparator fails exactly for the reflexive closure of the
reversed lexicographic order. -/
theorem procLess_false_iff (p q : Procedure) :
    procLess p q = false ↔
      (q.Name < p.Name ∨ (p.Name = q.Name ∧ q.Params.length ≤ p.Params.length)) := by
  rw [← Bool.not_eq_true, procLess_iff]
  constructor
  · intro h
    push_neg at h
    rcases lt_trichotomy p.Name q.Name with hlt | heq | hgt
    · exact absurd hlt h.1
    · exact Or.inr ⟨heq, h.2 heq⟩
    · exact Or.inl hgt
  · intro h contra
    rcases h with hgt | ⟨heq, hle⟩
    · rcases contra with hlt | ⟨heq, _⟩
      · exact absurd hlt (lt_asymm hgt)
      · rw [heq] at hgt
        exact absurd hgt (lt_irrefl _)
    · rcases contra with hlt | ⟨_, hlen⟩
      · rw [heq] at hlt
        exact absurd hlt (lt_irrefl _)
      · omega

/-- Helper: the non-strict comparator handed to mergeSort is transitive. -/
theorem procLE_trans (a b c : Procedure) (h1 : (!(procLess b a)) = true)
    (h2 : (!(procLess c b)) = true) : (!(procLess c a)) = true := by
  rw [Bool.not_eq_true', procLess_false_iff] at h1 h2 ⊢
  rcases h1 with hab | ⟨hba, hlab⟩
  · rcases h2 with hbc | ⟨hcb, hlbc⟩
    · exact Or.inl (lt_trans hab hbc)
    · rw [← hcb] at hab
      exact Or.inl hab
  · rcases h2 with hbc | ⟨hcb, hlbc⟩
    · rw [hba] at hbc
      exact Or.inl hbc
    · exact Or.inr ⟨hcb.trans hba, le_trans hlab hlbc⟩

/-- Helper: the non-strict comparator handed to mergeSort is total. -/
theorem procLE_total (a b : Procedure) :
    ((!(procLess b a)) || (!(procLess a b))) = true := by
  rw [Bool.or_eq_true, Bool.not_eq_true', Bool.not_eq_true']
  cases hba : procLess b a with
  | false => exact Or.inl rfl
  | true =>
    rw [procLess_iff] at hba
    right
    rw [procLess_false_iff]
    rcases hba with hlt | ⟨heq, hlen⟩
    · exact Or.inl hlt
    · exact Or.inr ⟨heq.symm, Nat.le_of_lt hlen⟩

/-- C6: AllForDatabase returns exactly the procedures stored under the
lowercased database key — a permutation of the flattened storage — sorted
ascending by (name, parameter count) regardless of the storage order. -/
theorem allForDatabase_sorted_by_name_arity (pc : ProcedureCache) (dbName : String) :
    (ProcedureCache.AllForDatabase pc dbName).Perm (registeredUnder pc dbName) ∧
    (ProcedureCache.AllForDatabase pc dbName).Pairwise
      (fun p q => p.Name < q.Name ∨ (p.Name = q.Name ∧ p.Params.length ≤ q.Params.length)) := by
  cases hdb : mapRead (goToLower dbName) pc with
  | none =>
    rw [show ProcedureCache.AllForDatabase pc dbName = [] from by
      unfold ProcedureCache.AllForDatabase
      rw [hdb]]
    rw [show registeredUnder pc dbName = [] from by
      unfold registeredUnder
      rw [hdb]
      rfl]
    exact ⟨List.Perm.refl _, List.Pairwise.nil⟩
  | some pm =>
    have hA : ProcedureCache.AllForDatabase pc dbName
        = (pm.foldl (fun acc nv => acc ++ nv.2.map Prod.snd) []).mergeSort
            (fun a b => !(procLess b a)) := by
      unfold ProcedureCache.AllForDatabase
      rw [hdb]
    have hR : registeredUnder pc dbName
        = pm.foldl (fun acc nv => acc ++ nv.2.map Prod.snd) [] := by
      unfold registeredUnder
      rw [hdb]
      rfl
    rw [hA, hR]
    refine ⟨List.mergeSort_perm _ _, ?_⟩
    have hs := List.sorted_mergeSort procLE_trans procLE_total
      (pm.foldl (fun acc nv => acc ++ nv.2.map Prod.snd) [])
    refine hs.imp ?_
    intro p q hpq
    rw [Bool.not_eq_true', procLess_false_iff] at hpq
    exact hpq.imp id (fun hh => ⟨hh.1.symm, hh.2⟩)

/-! ## Reachability of the key-consistency invariant -/

/-- Helper: a binding of a written map is the written binding or an original
one. -/
theorem mem_mapWrite {κ ν : Type} [DecidableEq κ] (k : κ) (v : ν) (l : List (κ × ν))
    (kv : κ × ν) (h : kv ∈ mapWrite k v l) : kv = (k, v) ∨ kv ∈ l := by
  induction l with
  | nil =>
    rw [mapWrite] at h
    rcases List.mem_cons.mp h with rfl | h2
    · exact Or.inl rfl
    · cases h2
  | cons hd tl ih =>
    obtain ⟨k1, v1⟩ := hd
    rw [mapWrite] at h
    by_cases h1 : k1 = k
    · rw [if_pos h1] at h
      rcases List.mem_cons.mp h with rfl | h2
      · exact Or.inl rfl
      · exact Or.inr (List.mem_cons_of_mem _ h2)
    · rw [if_neg h1] at h
      rcases List.mem_cons.mp h with rfl | h2
      · exact Or.inr (List.mem_cons_self _ _)
      · rcases ih h2 with h3 | h3
        · exact Or.inl h3
        · exact Or.inr (List.mem_cons_of_mem _ h3)

/-- Helper: a key of a written map is the written key or an original key. -/
theorem keys_mem_mapWrite {κ ν : Type} [DecidableEq κ] (k : κ) (v : ν)
    (l : List (κ × ν)) (x : κ) (h : x ∈ (mapWrite k v l).map Prod.fst) :
    x = k ∨ x ∈ l.map Prod.fst := by
  obtain ⟨kv, hkv, rfl⟩ := List.mem_map.mp h
  rcases mem_mapWrite k v l kv hkv with rfl | h2
  · exact Or.inl rfl
  · exact Or.inr (List.mem_map_of_mem _ h2)

/-- Helper: writing one binding keeps map keys distinct. -/
theorem keys_nodup_mapWrite {κ ν : Type} [DecidableEq κ] (k : κ) (v : ν)
    (l : List (κ × ν)) (hnd : (l.map Prod.fst).Nodup) :
    ((mapWrite k v l).map Prod.fst).Nodup := by
  induction l with
  | nil => simp [mapWrite]
  | cons hd tl ih =>
    obtain ⟨k1, v1⟩ := hd
    rw [List.map_cons, List.nodup_cons] at hnd
    rw [mapWrite]
    by_cases h1 : k1 = k
    · subst h1
      rw [if_pos rfl, List.map_cons, List.nodup_cons]
      exact ⟨hnd.1, hnd.2⟩
    · rw [if_neg h1, List.map_cons, List.nodup_cons]
      refine ⟨?_, ih hnd.2⟩
      intro hmem
      rcases keys_mem_mapWrite _ _ _ _ hmem with rfl | h2
      · exact h1 rfl
      · exact hnd.1 h2

/-- Helper: every family stored under one database key of a consistent cache
is consistent. -/
theorem stored_db_wf (pc : ProcedureCache) (dbKey : String) (hwf : CacheWF pc) :
    ∀ ne ∈ (mapRead dbKey pc).getD [], ProcMapWF ne.2 := by
  cases hdb : mapRead dbKey pc with
  | none =>
    intro ne h
    rw [Option.getD_none] at h
    cases h
  | some pm =>
    intro ne h
    exact hwf _ (mapRead_mem _ _ _ hdb) ne h

/-- Helper: the family stored under any two raw keys of a consistent cache is
consistent. -/
theorem stored_family_wf (pc : ProcedureCache) (dbKey nameKey : String)
    (hwf : CacheWF pc) :
    ProcMapWF ((mapRead nameKey ((mapRead dbKey pc).getD [])).getD []) := by
  cases hnm : mapRead nameKey ((mapRead dbKey pc).getD []) with
  | none =>
    refine ⟨?_, ?_⟩ <;> simp
  | some fam =>
    exact stored_db_wf pc dbKey hwf _ (mapRead_mem _ _ _ hnm)

/-- Helper: Register preserves key consistency, so every cache built by
Register calls from the empty cache satisfies the hypothesis of the overload
resolution theorem. -/
theorem register_preserves_wf (pc : ProcedureCache) (dbName : String) (p : Procedure)
    (hwf : CacheWF pc) : CacheWF (ProcedureCache.Register pc dbName p) := by
  intro dbe hdbe ne hne
  simp only [ProcedureCache.Register] at hdbe
  rcases mem_mapWrite _ _ _ _ hdbe with heq | hdbe2
  · subst heq
    rcases mem_mapWrite _ _ _ _ hne with heq2 | hne2
    · subst heq2
      refine ⟨keys_nodup_mapWrite _ _ _
        (stored_family_wf pc dbName (goToLower p.Name) hwf).1, ?_⟩
      intro kv hkv
      rcases mem_mapWrite _ _ _ _ hkv with rfl | hkv2
      · rfl
      · exact (stored_family_wf pc dbName (goToLower p.Name) hwf).2 kv hkv2
    · exact stored_db_wf pc dbName hwf ne hne2
  · exact hwf dbe hdbe2 ne hne

/-- Helper: the empty cache is consistent. -/
theorem empty_cache_wf : CacheWF ([] : ProcedureCache) := by
  intro dbe hdbe
  cases hdbe
